import Mathlib

/-!
# Verification of the PoW block-tree node

Shallow embedding of the consensus-and-gossip core of a proof-of-work
cryptocurrency node: the in-memory block-tree store (`blockchain.rs`),
the mining step (`miner.rs`), and the network worker's message handlers
(`worker.rs`).

Modelling conventions:
* `H256` hashes and `H160` addresses are modelled as `Nat` (the source
  compares hashes by big-endian numeric order, which `Nat`'s order
  mirrors; the 256-bit bound is irrelevant to the verified properties).
* The SHA-256 header hash (`block.hash()` delegates to the header's
  hash in the source) lives outside the translated crate, so every
  operation is parametric in a hash function `hashH : Header → Nat`.
  Theorems that need collision-freeness state it as an explicit
  injectivity hypothesis, the standard idealisation of SHA-256.
* Rust `HashMap`s become association lists with unique keys:
  `ainsert` overwrites (it removes any stale binding for the key),
  `alookup` finds the binding, matching `HashMap::insert`/`get`.
* `unwrap()` on a map lookup panics in Rust when the key is absent;
  the model totalises such reads with `Option.getD` and every theorem
  carries hypotheses that keep it in the panic-free region.
-/

namespace PoWNode

/-- An account-based raw transaction (`transaction.rs`): sender,
receiver, value and account nonce.  `H160` addresses are `Nat`. -/
structure RawTransaction where
  from_addr : Nat
  to_addr : Nat
  value : Nat
  nonce : Nat
  deriving DecidableEq, Repr

/-- A signed transaction (`transaction.rs`): the raw part plus the
signer's public-key bytes and signature bytes. -/
structure SignedTransaction where
  raw : RawTransaction
  pub_key : List Nat
  signature : List Nat
  deriving DecidableEq, Repr

/-- The `Default::default()` signed transaction: all-zero raw part,
empty key and signature byte vectors (the derived Rust `Default`). -/
def defaultSignedTransaction : SignedTransaction :=
  { raw := { from_addr := 0, to_addr := 0, value := 0, nonce := 0 },
    pub_key := [], signature := [] }

/-- A block header (spec §3, as used by `miner.rs`): parent hash,
nonce, difficulty target, timestamp and Merkle root. -/
structure Header where
  parent : Nat
  nonce : Nat
  difficulty : Nat
  timestamp : Nat
  merkle_root : Nat
  deriving DecidableEq, Repr

/-- Block content: the ordered sequence of signed transactions. -/
structure Content where
  transactions : List SignedTransaction
  deriving DecidableEq, Repr

/-- A block: header plus content.  The block's identity is the hash of
its header alone (`block.hash() := header.hash()`). -/
structure Block where
  header : Header
  content : Content
  deriving DecidableEq, Repr

/-- Origin tag of a stored block (`blockchain.rs`): locally mined, or
received from the network with an observed delay. -/
inductive BlockOrigin where
  | Mined : BlockOrigin
  | Received (delay_ms : Nat) : BlockOrigin
  deriving DecidableEq, Repr

/-! ## Association-list maps (the `HashMap` model) -/

/-- Lookup in an association list (model of `HashMap::get`). -/
def alookup (k : Nat) : List (Nat × α) → Option α
  | [] => none
  | (k', v) :: t => if k' = k then some v else alookup k t

/-- Insert-or-overwrite (model of `HashMap::insert`): the new binding
replaces any existing binding for the same key, so keys stay unique. -/
def ainsert (k : Nat) (v : α) (l : List (Nat × α)) : List (Nat × α) :=
  (k, v) :: l.filter (fun p => p.1 != k)

/-- Remove a key (model of `HashMap::remove`, dropping the value). -/
def aremove (k : Nat) (l : List (Nat × α)) : List (Nat × α) :=
  l.filter (fun p => p.1 != k)

/-- The key set of an association list, as a list. -/
def akeys (l : List (Nat × α)) : List Nat := l.map Prod.fst

theorem alookup_filter_key_ne (k k' : Nat) (l : List (Nat × α))
    (h : k' ≠ k) :
    alookup k (l.filter (fun p => p.1 != k')) = alookup k l := by
  induction l with
  | nil => rfl
  | cons p t ih =>
    cases p with
    | mk a b =>
      by_cases hp : a = k'
      · rw [List.filter_cons]
        simp only [hp, bne_self_eq_false, if_neg Bool.false_ne_true]
        rw [ih, alookup, if_neg h]
      · rw [List.filter_cons]
        simp only [bne_iff_ne, ne_eq, hp, not_false_iff, if_true]
        rw [alookup, alookup, ih]

theorem alookup_ainsert_self (k : Nat) (v : α) (l : List (Nat × α)) :
    alookup k (ainsert k v l) = some v := by
  simp [ainsert, alookup]

theorem alookup_ainsert_ne (k k' : Nat) (v : α) (l : List (Nat × α))
    (h : k' ≠ k) : alookup k (ainsert k' v l) = alookup k l := by
  rw [ainsert, alookup, if_neg h, alookup_filter_key_ne k k' l h]

theorem alookup_isSome_iff_mem_akeys (k : Nat) (l : List (Nat × α)) :
    (alookup k l).isSome ↔ k ∈ akeys l := by
  induction l with
  | nil => simp [alookup, akeys]
  | cons p t ih =>
    cases p with
    | mk a b =>
      by_cases hak : a = k
      · simp [alookup, akeys, hak]
      · rw [alookup, if_neg hak, akeys, List.map_cons, List.mem_cons]
        rw [akeys] at ih
        rw [ih]
        constructor
        · exact Or.inr
        · rintro (rfl | hm)
          · exact absurd rfl hak
          · exact hm

theorem alookup_aremove_ne (k k' : Nat) (l : List (Nat × α))
    (h : k' ≠ k) : alookup k (aremove k' l) = alookup k l :=
  alookup_filter_key_ne k k' l h

theorem alookup_aremove_self (k : Nat) (l : List (Nat × α)) :
    alookup k (aremove k l) = none := by
  induction l with
  | nil => rfl
  | cons p t ih =>
    cases p with
    | mk a b =>
      by_cases hp : a = k
      · rw [aremove, List.filter_cons]
        simp only [hp, bne_self_eq_false, if_neg Bool.false_ne_true]
        exact ih
      · rw [aremove, List.filter_cons]
        simp only [bne_iff_ne, ne_eq, hp, not_false_iff, if_true]
        rw [alookup, if_neg hp]
        exact ih

/-! ## The block-tree store (`blockchain.rs`) -/

/-- The block-tree store (`struct Blockchain`): block and height maps
indexed by block hash, the current tip, the network-wide difficulty,
the orphan buffer keyed by the awaited parent hash, and the
observational origin map. -/
structure Blockchain where
  hash_to_block : List (Nat × Block)
  hash_to_height : List (Nat × Nat)
  tip : Nat
  difficulty : Nat
  orphan_buffer : List (Nat × List Block)
  hash_to_origin : List (Nat × BlockOrigin)
  deriving DecidableEq, Repr

variable (hashH : Header → Nat)

/-- `block.hash()` — the source delegates to the SHA-256 hash of the
header; the model applies the abstract hash function to the header. -/
def Block.hashOf (b : Block) : Nat := hashH b.header

/-- `Blockchain::new()`: a store holding only the genesis block, tip at
genesis, difficulty seeded from the genesis header.  `Block::genesis()`
itself lives outside the translated crate, so the genesis block is a
parameter. -/
def Blockchain.new (genesis : Block) : Blockchain :=
  { hash_to_block := [(hashH genesis.header, genesis)],
    hash_to_height := [(hashH genesis.header, 0)],
    tip := hashH genesis.header,
    difficulty := genesis.header.difficulty,
    orphan_buffer := [],
    hash_to_origin := [] }

/-- `Blockchain::insert`: reads the parent's height (an `unwrap` in the
source, totalised with `getD 0`), stores the block and its height
(parent height + 1), and moves the tip iff the new height strictly
exceeds the height found at the tip key after the height insertion —
exactly the source's read order. -/
def Blockchain.insert (s : Blockchain) (b : Block) : Blockchain :=
  let parent_hash := b.header.parent
  let parent_height := (alookup parent_hash s.hash_to_height).getD 0
  let height := parent_height + 1
  let block_hash := hashH b.header
  let blocks := ainsert block_hash b s.hash_to_block
  let heights := ainsert block_hash height s.hash_to_height
  let tip := if height > (alookup s.tip heights).getD 0 then block_hash else s.tip
  { s with hash_to_block := blocks, hash_to_height := heights, tip := tip }

/-- `Blockchain::contains_block`. -/
def Blockchain.contains_block (s : Blockchain) (h : Nat) : Bool :=
  (alookup h s.hash_to_block).isSome

/-- `Blockchain::pow_validity_check`: the block's hash must not exceed
the difficulty declared in its own header, and that declared difficulty
must equal the store's network-wide difficulty. -/
def Blockchain.pow_validity_check (s : Blockchain) (b : Block) : Bool :=
  hashH b.header ≤ b.header.difficulty && b.header.difficulty == s.difficulty

/-- `Blockchain::parent_check`: the block's parent is in the store. -/
def Blockchain.parent_check (s : Blockchain) (b : Block) : Bool :=
  s.contains_block b.header.parent

/-- `Blockchain::add_to_orphan_buffer`: append the block to the list
keyed by its parent hash (`entry(parent).or_insert(vec![]).push`). -/
def Blockchain.add_to_orphan_buffer (s : Blockchain) (b : Block) : Blockchain :=
  let entry := (alookup b.header.parent s.orphan_buffer).getD [] ++ [b]
  { s with orphan_buffer := ainsert b.header.parent entry s.orphan_buffer }

/-- Size of the orphan buffer for the termination measure of
`insertRecAux`: each entry counts one plus the number of buffered
blocks it holds. -/
def bufMeasure (buf : List (Nat × List Block)) : Nat :=
  (buf.map (fun p => p.2.length + 1)).sum

theorem bufMeasure_cons (p : Nat × List Block) (t : List (Nat × List Block)) :
    bufMeasure (p :: t) = p.2.length + 1 + bufMeasure t := by
  simp [bufMeasure]

theorem bufMeasure_aremove_le (k : Nat) (t : List (Nat × List Block)) :
    bufMeasure (aremove k t) ≤ bufMeasure t := by
  induction t with
  | nil => exact Nat.le_refl _
  | cons p t ih =>
    rw [aremove, List.filter_cons]
    by_cases hp : p.1 = k
    · simp only [hp, bne_self_eq_false, if_neg Bool.false_ne_true]
      rw [bufMeasure_cons]
      rw [aremove] at ih
      omega
    · simp only [bne_iff_ne, ne_eq, hp, not_false_iff, if_true]
      rw [bufMeasure_cons, bufMeasure_cons]
      rw [aremove] at ih
      omega

theorem bufMeasure_aremove_of_alookup (k : Nat) (cs : List Block)
    (buf : List (Nat × List Block)) (h : alookup k buf = some cs) :
    bufMeasure (aremove k buf) + cs.length + 1 ≤ bufMeasure buf := by
  induction buf with
  | nil => simp [alookup] at h
  | cons p t ih =>
    cases p with
    | mk a l =>
      rw [alookup] at h
      by_cases hak : a = k
      · rw [if_pos hak] at h
        injection h with h
        rw [aremove, List.filter_cons]
        simp only [hak, bne_self_eq_false, if_neg Bool.false_ne_true]
        have hle := bufMeasure_aremove_le k t
        rw [aremove] at hle
        rw [bufMeasure_cons]
        simp only [← h]
        omega
      · rw [if_neg hak] at h
        rw [aremove, List.filter_cons]
        simp only [bne_iff_ne, ne_eq, hak, not_false_iff, if_true]
        rw [bufMeasure_cons, bufMeasure_cons]
        have := ih h
        rw [aremove] at this
        omega

/-- Worklist form of `Blockchain::insert_recursively`.  The source
recursion — insert the block, record its hash, then recurse over the
orphan-buffer entry drained at the block's hash, in buffer order — is
a depth-first traversal; prepending the drained children to the
worklist performs the same insertions in the same order. -/
def insertRecAux : Blockchain → List Block → List Nat → Blockchain × List Nat
  | s, [], out => (s, out)
  | s, b :: rest, out =>
    if s.contains_block (hashH b.header) then
      insertRecAux s rest out
    else
      let s1 := s.insert hashH b
      let out1 := out ++ [hashH b.header]
      match hcs : alookup (hashH b.header) s1.orphan_buffer with
      | some children =>
        let buf2 := aremove (hashH b.header) s1.orphan_buffer
        let s2 := { s1 with orphan_buffer := buf2 }
        insertRecAux s2 (children ++ rest) out1
      | none => insertRecAux s1 rest out1
  termination_by s queue _ => bufMeasure s.orphan_buffer + queue.length
  decreasing_by
  · simp only [List.length_cons]; omega
  · simp only [List.length_cons, List.length_append]
    have h1 : (Blockchain.insert hashH s b).orphan_buffer = s.orphan_buffer := rfl
    rw [h1] at hcs ⊢
    have := bufMeasure_aremove_of_alookup (hashH b.header) children
      s.orphan_buffer hcs
    omega
  · simp only [List.length_cons]
    have h1 : (Blockchain.insert hashH s b).orphan_buffer = s.orphan_buffer := rfl
    rw [h1]
    omega

/-- `Blockchain::insert_recursively`, threading the `out_hashes`
accumulator. -/
def Blockchain.insert_recursively (s : Blockchain) (b : Block)
    (out : List Nat) : Blockchain × List Nat :=
  insertRecAux hashH s [b] out

/-- `Blockchain::block_count`. -/
def Blockchain.block_count (s : Blockchain) : Nat := s.hash_to_block.length

/-- `Blockchain::average_block_size`: total serialized size over block
count.  Serialization lives outside the translated crate, so the size
function is a parameter; `Nat` division by zero would be the source's
division-by-zero panic. -/
def Blockchain.average_block_size (s : Blockchain) (sizeFn : Block → Nat) : Nat :=
  ((s.hash_to_block.map (fun p => sizeFn p.2)).sum) / s.block_count

/-! ## Network messages and the worker handlers (`worker.rs`) -/

/-- The gossip message set (`message.rs`, as handled by `worker.rs`).
`Pong` carries the decimal string of the ping nonce. -/
inductive Message where
  | Ping (nonce : Nat)
  | Pong (s : String)
  | NewBlockHashes (hashes : List Nat)
  | GetBlocks (hashes : List Nat)
  | Blocks (blocks : List Block)
  deriving DecidableEq

/-- The `NewBlockHashes` handler: keep, in order, exactly the hashes
not in the store; reply `GetBlocks` of them to the sender iff the
result is non-empty.  Returns the reply, if any (the store is not
mutated). -/
def handleNewBlockHashes (s : Blockchain) (hashes : List Nat) : Option Message :=
  let missing_hashes := hashes.filter (fun h => !s.contains_block h)
  if missing_hashes.isEmpty then none else some (Message.GetBlocks missing_hashes)

/-- Origin recording in the `Blocks` handler:
`hash_to_origin.entry(hash).or_insert(Received{delay_ms: now - timestamp})`.
First sighting wins; `now - timestamp` is the source's `u128`
subtraction, truncated at zero here. -/
def recordOrigin (now : Nat) (s : Blockchain) (b : Block) : Blockchain :=
  if (alookup (hashH b.header) s.hash_to_origin).isSome then s
  else
    let org := ainsert (hashH b.header)
      (BlockOrigin.Received (now - b.header.timestamp)) s.hash_to_origin
    { s with hash_to_origin := org }

/-- One iteration of the `Blocks` handler's per-block loop, threading
the store, the relay accumulator and the missing-parent accumulator:
record origin; skip if already present; skip (with a warning) if PoW
fails; buffer as orphan and request the parent if the parent is
unknown; otherwise insert recursively, collecting relayed hashes. -/
def processBlock (now : Nat) (st : Blockchain × List Nat × List Nat)
    (b : Block) : Blockchain × List Nat × List Nat :=
  let s := recordOrigin hashH now st.1 b
  let relay_hashes := st.2.1
  let missing_hashes := st.2.2
  if s.contains_block (hashH b.header) then (s, relay_hashes, missing_hashes)
  else if !s.pow_validity_check hashH b then (s, relay_hashes, missing_hashes)
  else if !s.parent_check b then
    (s.add_to_orphan_buffer b, relay_hashes, missing_hashes ++ [b.header.parent])
  else
    let res := s.insert_recursively hashH b relay_hashes
    (res.1, res.2, missing_hashes)

/-- The state-and-accumulator part of the `Blocks` handler: fold the
per-block step over the delivered blocks in sender order, starting
from empty accumulators. -/
def processBlocks (now : Nat) (s : Blockchain) (blocks : List Block) :
    Blockchain × List Nat × List Nat :=
  blocks.foldl (processBlock hashH now) (s, [], [])

/-- The full `Blocks` handler: the mutated store, the `GetBlocks` reply
to the sender (iff some parents were missing) and the
`NewBlockHashes` broadcast (iff some blocks were inserted). -/
def handleBlocks (now : Nat) (s : Blockchain) (blocks : List Block) :
    Blockchain × Option Message × Option Message :=
  let res := processBlocks hashH now s blocks
  let reply := if res.2.2.isEmpty then none
               else some (Message.GetBlocks res.2.2)
  let broadcast := if res.2.1.isEmpty then none
                   else some (Message.NewBlockHashes res.2.1)
  (res.1, reply, broadcast)

/-! ## The mining step (`miner.rs`) -/

/-- The mempool is an external collaborator.  Modelled from the spec:
`pop()` removes and returns a pending transaction or nothing — here
the list head — and `insert(tx)` adds a transaction with unspecified
ordering — here appended at the tail. -/
abbrev Mempool := List SignedTransaction

/-- The miner's selection loop: pop transactions one at a time into an
ordered sequence, stopping once it holds `n` of them or the mempool is
empty.  Returns the selection and the remaining mempool. -/
def popUpTo : Nat → List SignedTransaction →
    List SignedTransaction × List SignedTransaction
  | 0, mp => ([], mp)
  | _ + 1, [] => ([], [])
  | n + 1, tx :: rest =>
    let res := popUpTo n rest
    (tx :: res.1, res.2)

/-- One mining attempt (`miner_loop`, `Run` state), under both locks:
read the tip and its difficulty (`get_block(parent).unwrap` — `none`
models the panic when the tip is absent), select up to 10 transactions
(substituting one default transaction when the mempool is empty),
build the candidate from the given nonce and timestamp, and test the
PoW.  On success: insert, mark origin `Mined`; the `Bool` reports
whether a block was mined (`true` also signals the
`NewBlockHashes([hash])` broadcast).  On failure: return every
selected transaction to the mempool.  The Merkle root lives outside
the translated crate, so it is an abstract function `mr` of the
selected transactions. -/
def miningStep (mr : List SignedTransaction → Nat) (s : Blockchain)
    (mp : Mempool) (nonce timestamp : Nat) :
    Option (Blockchain × Mempool × Bool) :=
  match alookup s.tip s.hash_to_block with
  | none => none
  | some parent_block =>
    let parent := s.tip
    let difficulty := parent_block.header.difficulty
    let popped := popUpTo 10 mp
    let transactions :=
      if popped.1.isEmpty then [defaultSignedTransaction] else popped.1
    let merkle_root := mr transactions
    let header : Header :=
      { parent := parent, nonce := nonce, difficulty := difficulty,
        timestamp := timestamp, merkle_root := merkle_root }
    let block : Block := { header := header, content := ⟨transactions⟩ }
    if hashH header ≤ difficulty then
      let s1 := s.insert hashH block
      let org := ainsert (hashH header) BlockOrigin.Mined s1.hash_to_origin
      some ({ s1 with hash_to_origin := org }, popped.2, true)
    else
      some (s, transactions.foldl (fun m tx => m ++ [tx]) popped.2, false)

/-! ## Reachability -/

/-- Stores reachable from `Blockchain::new()` by `insert` under the
`parent_check` precondition and by `insert_recursively` (called, as
its doc comment requires, on a parentful or already-present block). -/
inductive ReachI (genesis : Block) : Blockchain → Prop where
  | base : ReachI genesis (Blockchain.new hashH genesis)
  | ins (s : Blockchain) (b : Block) : ReachI genesis s →
      s.parent_check b = true → ReachI genesis (s.insert hashH b)
  | insRec (s : Blockchain) (b : Block) (out : List Nat) : ReachI genesis s →
      (s.parent_check b = true ∨ s.contains_block (hashH b.header) = true) →
      ReachI genesis (s.insert_recursively hashH b out).1

/-- Stores reachable in the running system: from `Blockchain::new()` by
miner attempts and by the worker's `Blocks` handler.  The remaining
handlers (`Ping`, `Pong`, `NewBlockHashes`, `GetBlocks`) read but never
mutate the store. -/
inductive ReachW (mr : List SignedTransaction → Nat) (genesis : Block) :
    Blockchain → Prop where
  | base : ReachW mr genesis (Blockchain.new hashH genesis)
  | miner (s s' : Blockchain) (mp mp' : Mempool) (nonce ts : Nat) (mined : Bool) :
      ReachW mr genesis s →
      miningStep hashH mr s mp nonce ts = some (s', mp', mined) →
      ReachW mr genesis s'
  | blocks (s : Blockchain) (now : Nat) (bl : List Block) :
      ReachW mr genesis s →
      ReachW mr genesis (processBlocks hashH now s bl).1

/-- The orphan buffer is well keyed: every buffered block sits in the
entry of its own parent hash (as `add_to_orphan_buffer` guarantees). -/
def WellKeyed (s : Blockchain) : Prop :=
  ∀ k c, c ∈ (alookup k s.orphan_buffer).getD [] → c.header.parent = k

/-- `a` is an ancestor of `b`: the parent pointer of `b`, followed zero
or more times, reaches the hash of `a`'s header. -/
inductive AncestorOf : Block → Block → Prop where
  | parent (a b : Block) : hashH a.header = b.header.parent → AncestorOf a b
  | step (a p b : Block) : AncestorOf a p → hashH p.header = b.header.parent →
      AncestorOf a b

/-! ## C6 — the PoW validity predicate -/

/-- C6: `pow_validity_check(block)` holds iff the block's hash is at
most the difficulty declared in the block's own header and that
declared difficulty equals the store's network-wide difficulty; a
block failing either conjunct is rejected. -/
theorem pow_validity_check_iff (s : Blockchain) (b : Block) :
    s.pow_validity_check hashH b = true ↔
      (hashH b.header ≤ b.header.difficulty ∧
        b.header.difficulty = s.difficulty) := by
  simp [Blockchain.pow_validity_check, Bool.and_eq_true, decide_eq_true_iff]

/-! ## C1 — insert: height assignment and first-seen fork choice -/

/-- C1: if the parent is in the store (with height `ph`) and the tip
has height `th`, then `insert` stores the block at height `ph + 1`,
and the tip moves to the new block iff `ph + 1` strictly exceeds
`th`; in particular a tie (`ph + 1 = th`) leaves the tip unchanged —
first-seen wins. -/
theorem insert_height_and_first_seen_tip (s : Blockchain) (b : Block)
    (ph th : Nat)
    (hp : alookup b.header.parent s.hash_to_height = some ph)
    (ht : alookup s.tip s.hash_to_height = some th) :
    alookup (hashH b.header) (s.insert hashH b).hash_to_block = some b ∧
    alookup (hashH b.header) (s.insert hashH b).hash_to_height = some (ph + 1) ∧
    (s.insert hashH b).tip = (if th < ph + 1 then hashH b.header else s.tip) ∧
    (ph + 1 = th → (s.insert hashH b).tip = s.tip) := by
  have hblk : (s.insert hashH b).hash_to_block =
      ainsert (hashH b.header) b s.hash_to_block := rfl
  have hhei : (s.insert hashH b).hash_to_height =
      ainsert (hashH b.header) ((alookup b.header.parent s.hash_to_height).getD 0 + 1)
        s.hash_to_height := rfl
  have hph : (alookup b.header.parent s.hash_to_height).getD 0 = ph := by
    rw [hp]; rfl
  refine ⟨?_, ?_, ?_, ?_⟩
  · rw [hblk, alookup_ainsert_self]
  · rw [hhei, hph, alookup_ainsert_self]
  · show (if _ > (alookup s.tip (ainsert (hashH b.header)
        ((alookup b.header.parent s.hash_to_height).getD 0 + 1)
        s.hash_to_height)).getD 0 then hashH b.header else s.tip) = _
    rw [hph]
    by_cases hb : hashH b.header = s.tip
    · rw [← hb, alookup_ainsert_self]
      simp
    · rw [alookup_ainsert_ne s.tip (hashH b.header) _ _ hb, ht]
      simp
  · intro heq
    show (if _ > (alookup s.tip (ainsert (hashH b.header)
        ((alookup b.header.parent s.hash_to_height).getD 0 + 1)
        s.hash_to_height)).getD 0 then hashH b.header else s.tip) = _
    rw [hph]
    by_cases hb : hashH b.header = s.tip
    · rw [← hb, alookup_ainsert_self]
      simp [hb]
    · rw [alookup_ainsert_ne s.tip (hashH b.header) _ _ hb, ht]
      simp [heq]

/-- The hash function used by concrete witnesses: a block's identity is
its header nonce (witness scenarios give distinct nonces to distinct
blocks). -/
def hashNonce : Header → Nat := fun hd => hd.nonce

/-- Concrete genesis block for witnesses: difficulty 100, nonce 3. -/
def g0 : Block :=
  { header := { parent := 99, nonce := 3, difficulty := 100,
                timestamp := 0, merkle_root := 0 },
    content := ⟨[]⟩ }

/-- The witness store: a fresh chain over `g0`. -/
def chain0 : Blockchain := Blockchain.new hashNonce g0

/-- A child of genesis in the witness scenarios (hash 5). -/
def b0 : Block :=
  { header := { parent := 3, nonce := 5, difficulty := 100,
                timestamp := 0, merkle_root := 0 },
    content := ⟨[]⟩ }

/-- Witness for C1: inserting a child of genesis into the fresh chain
stores it at height 1 and moves the tip to it. -/
theorem insert_height_and_first_seen_tip_witness :
    alookup (hashNonce b0.header) (chain0.insert hashNonce b0).hash_to_block
        = some b0 ∧
    alookup (hashNonce b0.header) (chain0.insert hashNonce b0).hash_to_height
        = some 1 ∧
    (chain0.insert hashNonce b0).tip = (if 0 < 0 + 1 then hashNonce b0.header
        else chain0.tip) ∧
    (0 + 1 = 0 → (chain0.insert hashNonce b0).tip = chain0.tip) :=
  insert_height_and_first_seen_tip hashNonce chain0 b0 0 0 (by decide) (by decide)

/-! ## Lemmas about `insert` and `insertRecAux` -/

theorem contains_insert_mono (s : Blockchain) (b : Block) (h : Nat)
    (hc : s.contains_block h = true) :
    (s.insert hashH b).contains_block h = true := by
  rw [Blockchain.contains_block] at hc ⊢
  show (alookup h (ainsert (hashH b.header) b s.hash_to_block)).isSome = true
  by_cases hb : hashH b.header = h
  · rw [hb, alookup_ainsert_self]; rfl
  · rw [alookup_ainsert_ne h (hashH b.header) _ _ hb]; exact hc

theorem contains_insert_self (s : Blockchain) (b : Block) :
    (s.insert hashH b).contains_block (hashH b.header) = true := by
  rw [Blockchain.contains_block]
  show (alookup (hashH b.header)
    (ainsert (hashH b.header) b s.hash_to_block)).isSome = true
  rw [alookup_ainsert_self]; rfl

/-- Unfolding `insertRecAux` when the head block is already stored:
skip it. -/
theorem insertRecAux_cons_skip (s : Blockchain) (b : Block)
    (rest : List Block) (out : List Nat)
    (hc : s.contains_block (hashH b.header) = true) :
    insertRecAux hashH s (b :: rest) out = insertRecAux hashH s rest out := by
  rw [insertRecAux, if_pos hc]

/-- Unfolding `insertRecAux` when the head block is new and orphans
await its hash: insert it, record its hash, drain the buffer entry and
queue the children ahead of the rest. -/
theorem insertRecAux_cons_drain (s : Blockchain) (b : Block)
    (rest : List Block) (out : List Nat) (children : List Block)
    (hc : ¬ s.contains_block (hashH b.header) = true)
    (hcs : alookup (hashH b.header) s.orphan_buffer = some children) :
    insertRecAux hashH s (b :: rest) out =
      insertRecAux hashH
        { s.insert hashH b with
            orphan_buffer := aremove (hashH b.header) s.orphan_buffer }
        (children ++ rest) (out ++ [hashH b.header]) := by
  rw [insertRecAux, if_neg hc]
  dsimp only
  split
  · rename_i children' heq
    have h1 : alookup (hashH b.header) s.orphan_buffer = some children' := heq
    rw [h1] at hcs
    injection hcs with h2
    rw [h2]
    rfl
  · rename_i heq
    have h1 : alookup (hashH b.header) s.orphan_buffer = none := heq
    rw [h1] at hcs
    exact absurd hcs (by simp)

/-- Unfolding `insertRecAux` when the head block is new and no orphan
awaits it: insert it, record its hash, continue with the rest. -/
theorem insertRecAux_cons_new (s : Blockchain) (b : Block)
    (rest : List Block) (out : List Nat)
    (hc : ¬ s.contains_block (hashH b.header) = true)
    (hcs : alookup (hashH b.header) s.orphan_buffer = none) :
    insertRecAux hashH s (b :: rest) out =
      insertRecAux hashH (s.insert hashH b) rest (out ++ [hashH b.header]) := by
  rw [insertRecAux, if_neg hc]
  dsimp only
  split
  · rename_i children' heq
    have h1 : alookup (hashH b.header) s.orphan_buffer = some children' := heq
    rw [h1] at hcs
    exact absurd hcs (by simp)
  · rfl

theorem insertRecAux_contains_mono (s : Blockchain) (q : List Block)
    (out : List Nat) (h : Nat) :
    s.contains_block h = true →
    ((insertRecAux hashH s q out).1).contains_block h = true := by
  induction s, q, out using insertRecAux.induct hashH with
  | case1 s out =>
    intro hc
    simpa [insertRecAux] using hc
  | case2 s b rest out hcont ih =>
    intro hc
    rw [insertRecAux_cons_skip hashH s b rest out hcont]
    exact ih hc
  | case3 s b rest out hcont s1 out1 children hcs buf2 s2 ih =>
    intro hc
    have hcs' : alookup (hashH b.header) s.orphan_buffer = some children := hcs
    rw [insertRecAux_cons_drain hashH s b rest out children hcont hcs']
    exact ih (contains_insert_mono hashH s b h hc)
  | case4 s b rest out hcont s1 out1 hcs ih =>
    intro hc
    have hcs' : alookup (hashH b.header) s.orphan_buffer = none := hcs
    rw [insertRecAux_cons_new hashH s b rest out hcont hcs']
    exact ih (contains_insert_mono hashH s b h hc)

theorem insertRecAux_contains_queue (s : Blockchain) (q : List Block)
    (out : List Nat) (c : Block) :
    c ∈ q → ((insertRecAux hashH s q out).1).contains_block (hashH c.header) = true := by
  induction s, q, out using insertRecAux.induct hashH with
  | case1 s out =>
    intro hc
    exact absurd hc (List.not_mem_nil c)
  | case2 s b rest out hcont ih =>
    intro hc
    rw [insertRecAux_cons_skip hashH s b rest out hcont]
    rcases List.mem_cons.mp hc with rfl | hc
    · exact insertRecAux_contains_mono hashH s rest out _ hcont
    · exact ih hc
  | case3 s b rest out hcont s1 out1 children hcs buf2 s2 ih =>
    intro hc
    have hcs' : alookup (hashH b.header) s.orphan_buffer = some children := hcs
    rw [insertRecAux_cons_drain hashH s b rest out children hcont hcs']
    rcases List.mem_cons.mp hc with rfl | hc
    · exact insertRecAux_contains_mono hashH _ _ _ _
        (contains_insert_self hashH s c)
    · exact ih (List.mem_append_right children hc)
  | case4 s b rest out hcont s1 out1 hcs ih =>
    intro hc
    have hcs' : alookup (hashH b.header) s.orphan_buffer = none := hcs
    rw [insertRecAux_cons_new hashH s b rest out hcont hcs']
    rcases List.mem_cons.mp hc with rfl | hc
    · exact insertRecAux_contains_mono hashH _ _ _ _
        (contains_insert_self hashH s c)
    · exact ih hc

theorem insertRec_of_contains (s : Blockchain) (b : Block) (out : List Nat)
    (hc : s.contains_block (hashH b.header) = true) :
    s.insert_recursively hashH b out = (s, out) := by
  rw [Blockchain.insert_recursively, insertRecAux, if_pos hc, insertRecAux]

/-! ## C7 — idempotence of `insert_recursively` -/

/-- C7: `insert_recursively` on an already-present block leaves both
the store and the `out_hashes` accumulator unchanged, and applying it
twice has the same effect on the store as applying it once. -/
theorem insert_recursively_idempotent (s : Blockchain) (b : Block)
    (out : List Nat) :
    (s.contains_block (hashH b.header) = true →
      s.insert_recursively hashH b out = (s, out)) ∧
    (∀ out', (((s.insert_recursively hashH b out).1).insert_recursively
        hashH b out').1 = (s.insert_recursively hashH b out).1) := by
  constructor
  · exact insertRec_of_contains hashH s b out
  · intro out'
    have hc : ((s.insert_recursively hashH b out).1).contains_block
        (hashH b.header) = true :=
      insertRecAux_contains_queue hashH s [b] out b (List.mem_singleton.mpr rfl)
    rw [insertRec_of_contains hashH _ b out' hc]

/-- The witness chain after inserting `b0`. -/
def chain1 : Blockchain := chain0.insert hashNonce b0

/-- Witness for C7: re-inserting the present block `b0` recursively
changes nothing. -/
theorem insert_recursively_idempotent_witness :
    chain1.insert_recursively hashNonce b0 [] = (chain1, []) :=
  (insert_recursively_idempotent hashNonce chain1 b0 []).1 (by decide)

/-! ## C3 — orphan promotion -/

/-- C3 (amended): if `b` sits in the orphan buffer under key `p`, `p`
is not yet in the store, and a run of `insert_recursively` brings `p`
into the store, then `b` is in the store immediately after that run.
(The promotion happens only through `insert_recursively`; the plain
`insert` used by the miner does not drain the buffer — see the
counterexample below.) -/
theorem orphan_promotion_insert_recursively (s : Blockchain)
    (root b : Block) (p : Nat) (out : List Nat)
    (hb : b ∈ (alookup p s.orphan_buffer).getD [])
    (habsent : s.contains_block p = false)
    (hafter : ((s.insert_recursively hashH root out).1).contains_block p = true) :
    ((s.insert_recursively hashH root out).1).contains_block
      (hashH b.header) = true := by
  rw [Blockchain.insert_recursively] at hafter ⊢
  revert hb habsent hafter
  generalize hq : [root] = q
  clear hq
  induction s, q, out using insertRecAux.induct hashH with
  | case1 s out =>
    intro hb habsent hafter
    rw [insertRecAux] at hafter
    exact absurd hafter (by simp [habsent])
  | case2 s b' rest out hcont ih =>
    intro hb habsent hafter
    rw [insertRecAux_cons_skip hashH s b' rest out hcont] at hafter ⊢
    exact ih hb habsent hafter
  | case3 s b' rest out hcont s1 out1 children hcs buf2 s2 ih =>
    intro hb habsent hafter
    have hcs' : alookup (hashH b'.header) s.orphan_buffer = some children := hcs
    rw [insertRecAux_cons_drain hashH s b' rest out children hcont hcs']
      at hafter ⊢
    by_cases hp : hashH b'.header = p
    · have hbc : b ∈ children := by
        rw [hp] at hcs'
        rw [hcs'] at hb
        exact hb
      exact insertRecAux_contains_queue hashH _ _ _ b
        (List.mem_append_left rest hbc)
    · have hb2 : b ∈ (alookup p (aremove (hashH b'.header)
          s.orphan_buffer)).getD [] := by
        rw [alookup_aremove_ne p (hashH b'.header) _ hp]
        exact hb
      have habsent2 : (Blockchain.insert hashH s b').contains_block p = false := by
        rw [Blockchain.contains_block]
        show (alookup p (ainsert (hashH b'.header) b' s.hash_to_block)).isSome
          = false
        rw [alookup_ainsert_ne p (hashH b'.header) _ _ hp]
        exact habsent
      exact ih hb2 habsent2 hafter
  | case4 s b' rest out hcont s1 out1 hcs ih =>
    intro hb habsent hafter
    have hcs' : alookup (hashH b'.header) s.orphan_buffer = none := hcs
    rw [insertRecAux_cons_new hashH s b' rest out hcont hcs'] at hafter ⊢
    by_cases hp : hashH b'.header = p
    · rw [hp] at hcs'
      rw [hcs'] at hb
      exact absurd hb (List.not_mem_nil b)
    · have habsent2 : (Blockchain.insert hashH s b').contains_block p = false := by
        rw [Blockchain.contains_block]
        show (alookup p (ainsert (hashH b'.header) b' s.hash_to_block)).isSome
          = false
        rw [alookup_ainsert_ne p (hashH b'.header) _ _ hp]
        exact habsent
      exact ih hb habsent2 hafter

/-- The parent block awaited in the orphan scenarios: a child of
genesis with hash 5; `b5` below is its child with hash 7. -/
def p0 : Block :=
  { header := { parent := 3, nonce := 5, difficulty := 100,
                timestamp := 0, merkle_root := 0 },
    content := ⟨[]⟩ }

/-- An orphan waiting for `p0` (parent hash 5, own hash 7). -/
def b5 : Block :=
  { header := { parent := 5, nonce := 7, difficulty := 100,
                timestamp := 0, merkle_root := 0 },
    content := ⟨[]⟩ }

/-- The fresh chain with `b5` parked in the orphan buffer under the
hash of `p0`. -/
def chainOrphan : Blockchain := chain0.add_to_orphan_buffer b5

/-- Counterexample to C3 as stated: delivering the awaited parent `p0`
through the plain `insert` (the miner's path) does put `p0` in the
store, yet its buffered child `b5` is still absent immediately after —
`insert` does not drain the orphan buffer. -/
theorem plain_insert_does_not_promote_orphan :
    b5 ∈ (alookup (hashNonce p0.header) chainOrphan.orphan_buffer).getD [] ∧
    (chainOrphan.insert hashNonce p0).contains_block (hashNonce p0.header)
      = true ∧
    (chainOrphan.insert hashNonce p0).contains_block (hashNonce b5.header)
      = false := by
  refine ⟨?_, ?_, ?_⟩ <;> decide

/-- Witness for the amended C3: inserting `p0` recursively into
`chainOrphan` promotes the buffered child `b5` into the store. -/
theorem orphan_promotion_insert_recursively_witness :
    ((chainOrphan.insert_recursively hashNonce p0 []).1).contains_block
      (hashNonce b5.header) = true :=
  orphan_promotion_insert_recursively hashNonce chainOrphan p0 b5
    (hashNonce p0.header) [] (by decide) (by decide)
    (insertRecAux_contains_queue hashNonce chainOrphan [p0] [] p0 (by simp))

/-! ## C9 — the `NewBlockHashes` handler -/

/-- C9: the `NewBlockHashes` handler computes exactly the
order-preserving subsequence of announced hashes that are not in the
store, and replies `GetBlocks` of it to the sender iff that
subsequence is non-empty. -/
theorem new_block_hashes_reply (s : Blockchain) (hashes : List Nat) :
    (hashes.filter (fun h => !s.contains_block h) ≠ [] →
      handleNewBlockHashes s hashes =
        some (Message.GetBlocks (hashes.filter (fun h => !s.contains_block h)))) ∧
    (hashes.filter (fun h => !s.contains_block h) = [] →
      handleNewBlockHashes s hashes = none) ∧
    (hashes.filter (fun h => !s.contains_block h)).Sublist hashes ∧
    (∀ h, h ∈ hashes.filter (fun h => !s.contains_block h) ↔
      (h ∈ hashes ∧ s.contains_block h = false)) := by
  refine ⟨?_, ?_, List.filter_sublist hashes, ?_⟩
  · intro hne
    rw [handleNewBlockHashes, if_neg]
    rw [List.isEmpty_iff]
    exact hne
  · intro he
    rw [handleNewBlockHashes, if_pos]
    rw [List.isEmpty_iff]
    exact he
  · intro h
    rw [List.mem_filter, Bool.not_eq_true']

/-- Witness for C9: announcing the known genesis hash `3` and the
unknown hash `42` to the fresh chain yields a `GetBlocks([42])`
reply. -/
theorem new_block_hashes_reply_witness :
    [3, 42].filter (fun h => !chain0.contains_block h) ≠ [] ∧
    handleNewBlockHashes chain0 [3, 42] =
      some (Message.GetBlocks
        ([3, 42].filter (fun h => !chain0.contains_block h))) :=
  ⟨by decide, (new_block_hashes_reply chain0 [3, 42]).1 (by decide)⟩

/-! ## C8 — PoW rejection in the `Blocks` handler -/

theorem recordOrigin_hash_to_block (now : Nat) (s : Blockchain) (b : Block) :
    (recordOrigin hashH now s b).hash_to_block = s.hash_to_block := by
  rw [recordOrigin]
  split <;> rfl

theorem recordOrigin_hash_to_height (now : Nat) (s : Blockchain) (b : Block) :
    (recordOrigin hashH now s b).hash_to_height = s.hash_to_height := by
  rw [recordOrigin]
  split <;> rfl

theorem recordOrigin_tip (now : Nat) (s : Blockchain) (b : Block) :
    (recordOrigin hashH now s b).tip = s.tip := by
  rw [recordOrigin]
  split <;> rfl

theorem recordOrigin_difficulty (now : Nat) (s : Blockchain) (b : Block) :
    (recordOrigin hashH now s b).difficulty = s.difficulty := by
  rw [recordOrigin]
  split <;> rfl

theorem recordOrigin_orphan_buffer (now : Nat) (s : Blockchain) (b : Block) :
    (recordOrigin hashH now s b).orphan_buffer = s.orphan_buffer := by
  rw [recordOrigin]
  split <;> rfl

theorem recordOrigin_contains (now : Nat) (s : Blockchain) (b : Block)
    (h : Nat) :
    (recordOrigin hashH now s b).contains_block h = s.contains_block h := by
  rw [Blockchain.contains_block, Blockchain.contains_block,
    recordOrigin_hash_to_block]

theorem recordOrigin_pow (now : Nat) (s : Blockchain) (b c : Block) :
    (recordOrigin hashH now s b).pow_validity_check hashH c
      = s.pow_validity_check hashH c := by
  rw [Blockchain.pow_validity_check, Blockchain.pow_validity_check,
    recordOrigin_difficulty]

/-- C8: when the `Blocks` handler processes a delivered block that is
not already stored and whose hash exceeds the network difficulty
target, the block-tree maps, the tip and the orphan buffer are left
unchanged (only the observational origin map may gain an entry), and
neither the parent is appended to `missing_hashes` nor the hash to
`relay_hashes` — the block is never relayed. -/
theorem pow_reject_leaves_state (now : Nat) (s : Blockchain)
    (relay missing : List Nat) (b : Block)
    (hnc : s.contains_block (hashH b.header) = false)
    (hpow : s.difficulty < hashH b.header) :
    (processBlock hashH now (s, relay, missing) b).1.hash_to_block
        = s.hash_to_block ∧
    (processBlock hashH now (s, relay, missing) b).1.hash_to_height
        = s.hash_to_height ∧
    (processBlock hashH now (s, relay, missing) b).1.tip = s.tip ∧
    (processBlock hashH now (s, relay, missing) b).1.orphan_buffer
        = s.orphan_buffer ∧
    (processBlock hashH now (s, relay, missing) b).2.1 = relay ∧
    (processBlock hashH now (s, relay, missing) b).2.2 = missing := by
  have hpowF : (recordOrigin hashH now s b).pow_validity_check hashH b
      = false := by
    rw [recordOrigin_pow, Blockchain.pow_validity_check]
    rw [Bool.and_eq_false_iff]
    by_cases hd : b.header.difficulty = s.difficulty
    · left
      rw [decide_eq_false_iff_not]
      rw [hd]
      omega
    · right
      rw [beq_eq_false_iff_ne]
      exact hd
  have hncF : (recordOrigin hashH now s b).contains_block (hashH b.header)
      = false := by
    rw [recordOrigin_contains]
    exact hnc
  have hres : processBlock hashH now (s, relay, missing) b
      = (recordOrigin hashH now s b, relay, missing) := by
    rw [processBlock]
    dsimp only
    rw [if_neg (by rw [hncF]; exact Bool.false_ne_true)]
    rw [if_pos (by rw [hpowF]; rfl)]
  rw [hres]
  exact ⟨recordOrigin_hash_to_block hashH now s b,
    recordOrigin_hash_to_height hashH now s b,
    recordOrigin_tip hashH now s b,
    recordOrigin_orphan_buffer hashH now s b, rfl, rfl⟩

/-- A block whose hash `101` exceeds the network difficulty `100`. -/
def bBad : Block :=
  { header := { parent := 3, nonce := 101, difficulty := 100,
                timestamp := 0, merkle_root := 0 },
    content := ⟨[]⟩ }

/-- Witness for C8: delivering `bBad` to the fresh chain changes no
block-tree component and appends to neither accumulator. -/
theorem pow_reject_leaves_state_witness :
    (processBlock hashNonce 0 (chain0, [], []) bBad).1.hash_to_block
        = chain0.hash_to_block ∧
    (processBlock hashNonce 0 (chain0, [], []) bBad).1.hash_to_height
        = chain0.hash_to_height ∧
    (processBlock hashNonce 0 (chain0, [], []) bBad).1.tip = chain0.tip ∧
    (processBlock hashNonce 0 (chain0, [], []) bBad).1.orphan_buffer
        = chain0.orphan_buffer ∧
    (processBlock hashNonce 0 (chain0, [], []) bBad).2.1 = ([] : List Nat) ∧
    (processBlock hashNonce 0 (chain0, [], []) bBad).2.2 = ([] : List Nat) :=
  pow_reject_leaves_state hashNonce 0 chain0 [] [] bBad (by decide) (by decide)

/-! ## C4 — failed mining attempts -/

theorem foldl_push_eq_append (l acc : List SignedTransaction) :
    l.foldl (fun m tx => m ++ [tx]) acc = acc ++ l := by
  induction l generalizing acc with
  | nil => simp
  | cons tx rest ih =>
    rw [List.foldl_cons, ih]
    simp

theorem popUpTo_eq_take_drop (n : Nat) (mp : List SignedTransaction) :
    popUpTo n mp = (mp.take n, mp.drop n) := by
  induction n generalizing mp with
  | zero => simp [popUpTo]
  | succ n ih =>
    cases mp with
    | nil => simp [popUpTo]
    | cons tx rest =>
      rw [popUpTo, ih]
      simp

/-- C4 (amended): a mining attempt whose candidate fails the PoW test
leaves the block-tree unchanged and returns every selected transaction
to the mempool: if the mempool was non-empty before the attempt, the
mempool afterwards holds exactly the same transactions (as a multiset;
the pop/re-insert cycle may rotate them); if it was empty, it
afterwards holds exactly the single substituted default transaction —
which was not pending before the attempt. -/
theorem failed_attempt_restores_mempool (mr : List SignedTransaction → Nat)
    (s : Blockchain) (mp mp' : Mempool) (nonce ts : Nat) (s' : Blockchain)
    (h : miningStep hashH mr s mp nonce ts = some (s', mp', false)) :
    s' = s ∧ (mp ≠ [] → mp'.Perm mp) ∧
    (mp = [] → mp' = [defaultSignedTransaction]) := by
  rw [miningStep] at h
  cases hlook : alookup s.tip s.hash_to_block with
  | none =>
    rw [hlook] at h
    exact absurd h (by simp)
  | some pb =>
    rw [hlook] at h
    simp only [popUpTo_eq_take_drop] at h
    cases mp with
    | nil =>
      simp only [List.take_nil, List.drop_nil, List.isEmpty_nil,
        if_true] at h
      split at h
      · simp only [Option.some.injEq, Prod.mk.injEq] at h
        exact Bool.noConfusion h.2.2
      · simp only [Option.some.injEq, Prod.mk.injEq] at h
        obtain ⟨hs, hmp, -⟩ := h
        refine ⟨hs.symm, fun hne => absurd rfl hne, fun _ => ?_⟩
        rw [← hmp, foldl_push_eq_append]
        simp
    | cons tx rest =>
      have hemp : ((tx :: rest).take 10).isEmpty = false := by
        simp [List.take]
      rw [hemp] at h
      rw [if_neg (by decide : ¬ (false = true))] at h
      split at h
      · simp only [Option.some.injEq, Prod.mk.injEq] at h
        exact Bool.noConfusion h.2.2
      · simp only [Option.some.injEq, Prod.mk.injEq] at h
        obtain ⟨hs, hmp, -⟩ := h
        refine ⟨hs.symm, fun _ => ?_, fun he => by simp at he⟩
        rw [← hmp, foldl_push_eq_append]
        have hperm : List.Perm
            ((tx :: rest).drop 10 ++ (tx :: rest).take 10)
            ((tx :: rest).take 10 ++ (tx :: rest).drop 10) :=
          List.perm_append_comm
        rw [List.take_append_drop] at hperm
        exact hperm

/-- The Merkle-root function used in witness scenarios. -/
def mr0 : List SignedTransaction → Nat := fun _ => 0

/-- Counterexample to C4 as stated: a failed attempt from an *empty*
mempool leaves the mempool holding the substituted default
transaction — a transaction that was not pending before the attempt,
so the mempool does not contain "exactly the pending transactions it
held before".  The candidate (nonce `101`, hash `101`) exceeds the
difficulty `100`, so the attempt fails. -/
theorem failed_attempt_adds_default_tx :
    miningStep hashNonce mr0 chain0 [] 101 0
      = some (chain0, [defaultSignedTransaction], false) ∧
    [defaultSignedTransaction] ≠ ([] : Mempool) :=
  ⟨by decide, by decide⟩

/-- Witness for the amended C4: a failed attempt from the one-element
mempool `[defaultSignedTransaction]` restores it, and the block-tree
is unchanged. -/
theorem failed_attempt_restores_mempool_witness :
    chain0 = chain0 ∧
    (([defaultSignedTransaction] : Mempool) ≠ [] →
      List.Perm [defaultSignedTransaction] [defaultSignedTransaction]) ∧
    (([defaultSignedTransaction] : Mempool) = [] →
      [defaultSignedTransaction] = [defaultSignedTransaction]) :=
  failed_attempt_restores_mempool hashNonce mr0 chain0
    [defaultSignedTransaction] [defaultSignedTransaction] 101 0 chain0
    (by decide)

/-! ## C10 — reachable stores are never empty -/

theorem contains_miningStep_mono (mr : List SignedTransaction → Nat)
    (s s' : Blockchain) (mp mp' : Mempool) (nonce ts : Nat) (mined : Bool)
    (h : miningStep hashH mr s mp nonce ts = some (s', mp', mined)) (x : Nat)
    (hc : s.contains_block x = true) : s'.contains_block x = true := by
  rw [miningStep] at h
  cases hlook : alookup s.tip s.hash_to_block with
  | none =>
    rw [hlook] at h
    exact absurd h (by simp)
  | some pb =>
    rw [hlook] at h
    dsimp only at h
    split at h <;> split at h <;>
      (simp only [Option.some.injEq, Prod.mk.injEq] at h
       obtain ⟨hs, -, -⟩ := h
       subst hs) <;>
      first
        | exact hc
        | exact contains_insert_mono hashH s _ x hc

theorem contains_processBlock_mono (now : Nat)
    (st : Blockchain × List Nat × List Nat) (b : Block) (x : Nat)
    (hc : st.1.contains_block x = true) :
    ((processBlock hashH now st b).1).contains_block x = true := by
  obtain ⟨s, relay, missing⟩ := st
  have hc' : (recordOrigin hashH now s b).contains_block x = true := by
    rw [recordOrigin_contains]
    exact hc
  rw [processBlock]
  dsimp only
  split
  · exact hc'
  · split
    · exact hc'
    · split
      · exact hc'
      · exact insertRecAux_contains_mono hashH _ [b] relay x hc'

theorem contains_processBlocks_fold_mono (now : Nat) (bl : List Block)
    (st : Blockchain × List Nat × List Nat) (x : Nat)
    (hc : st.1.contains_block x = true) :
    ((bl.foldl (processBlock hashH now) st).1).contains_block x = true := by
  induction bl generalizing st with
  | nil => simpa using hc
  | cons b rest ih =>
    rw [List.foldl_cons]
    exact ih _ (contains_processBlock_mono hashH now st b x hc)

/-- C10: every store reachable in the running system still contains
the genesis block (blocks are never removed), so `block_count` — the
divisor in `average_block_size` — is strictly positive and the
division never has a zero divisor. -/
theorem reachable_store_nonempty (mr : List SignedTransaction → Nat)
    (genesis : Block) (s : Blockchain)
    (hr : ReachW hashH mr genesis s) :
    s.contains_block (hashH genesis.header) = true ∧ 0 < s.block_count := by
  have hg : s.contains_block (hashH genesis.header) = true := by
    induction hr with
    | base => simp [Blockchain.new, Blockchain.contains_block, alookup]
    | miner s1 s2 mp mp' nonce ts mined hr1 hstep ih =>
      exact contains_miningStep_mono hashH mr s1 s2 mp mp' nonce ts mined
        hstep _ ih
    | blocks s1 now bl hr1 ih =>
      exact contains_processBlocks_fold_mono hashH now bl (s1, [], []) _ ih
  refine ⟨hg, ?_⟩
  rw [Blockchain.contains_block] at hg
  cases hb : s.hash_to_block with
  | nil =>
    rw [hb] at hg
    simp [alookup] at hg
  | cons p t =>
    rw [Blockchain.block_count, hb]
    simp

/-- Witness for C10: the fresh chain is reachable and non-empty. -/
theorem reachable_store_nonempty_witness :
    chain0.contains_block (hashNonce g0.header) = true ∧
    0 < chain0.block_count :=
  reachable_store_nonempty hashNonce mr0 g0 chain0 ReachW.base

/-! ## C5 — what sits in the orphan buffer -/

theorem insertRecAux_state_indep (s : Blockchain) (q : List Block)
    (out : List Nat) :
    ∀ out', (insertRecAux hashH s q out).1 = (insertRecAux hashH s q out').1 := by
  induction s, q, out using insertRecAux.induct hashH with
  | case1 s out =>
    intro out'
    rw [insertRecAux, insertRecAux]
  | case2 s b rest out hcont ih =>
    intro out'
    rw [insertRecAux_cons_skip hashH s b rest out hcont,
      insertRecAux_cons_skip hashH s b rest out' hcont]
    exact ih out'
  | case3 s b rest out hcont s1 out1 children hcs buf2 s2 ih =>
    intro out'
    have hcs' : alookup (hashH b.header) s.orphan_buffer = some children := hcs
    rw [insertRecAux_cons_drain hashH s b rest out children hcont hcs',
      insertRecAux_cons_drain hashH s b rest out' children hcont hcs']
    exact ih _
  | case4 s b rest out hcont s1 out1 hcs ih =>
    intro out'
    have hcs' : alookup (hashH b.header) s.orphan_buffer = none := hcs
    rw [insertRecAux_cons_new hashH s b rest out hcont hcs',
      insertRecAux_cons_new hashH s b rest out' hcont hcs']
    exact ih _

theorem processBlock_state_indep (now : Nat) (s : Blockchain)
    (r m r' m' : List Nat) (b : Block) :
    (processBlock hashH now (s, r, m) b).1
      = (processBlock hashH now (s, r', m') b).1 := by
  rw [processBlock, processBlock]
  dsimp only
  split
  · rfl
  · split
    · rfl
    · split
      · rfl
      · exact insertRecAux_state_indep hashH _ [b] r r'

theorem insertRecAux_difficulty (s : Blockchain) (q : List Block)
    (out : List Nat) :
    ((insertRecAux hashH s q out).1).difficulty = s.difficulty := by
  induction s, q, out using insertRecAux.induct hashH with
  | case1 s out => rw [insertRecAux]
  | case2 s b rest out hcont ih =>
    rw [insertRecAux_cons_skip hashH s b rest out hcont]
    exact ih
  | case3 s b rest out hcont s1 out1 children hcs buf2 s2 ih =>
    have hcs' : alookup (hashH b.header) s.orphan_buffer = some children := hcs
    rw [insertRecAux_cons_drain hashH s b rest out children hcont hcs']
    exact ih
  | case4 s b rest out hcont s1 out1 hcs ih =>
    have hcs' : alookup (hashH b.header) s.orphan_buffer = none := hcs
    rw [insertRecAux_cons_new hashH s b rest out hcont hcs']
    exact ih

theorem processBlock_difficulty (now : Nat)
    (st : Blockchain × List Nat × List Nat) (b : Block) :
    ((processBlock hashH now st b).1).difficulty = st.1.difficulty := by
  obtain ⟨s, relay, missing⟩ := st
  rw [processBlock]
  dsimp only
  split
  · exact recordOrigin_difficulty hashH now s b
  · split
    · exact recordOrigin_difficulty hashH now s b
    · split
      · exact recordOrigin_difficulty hashH now s b
      · show (Blockchain.insert_recursively hashH
            (recordOrigin hashH now s b) b relay).1.difficulty = s.difficulty
        rw [Blockchain.insert_recursively,
          insertRecAux_difficulty hashH _ [b] relay]
        exact recordOrigin_difficulty hashH now s b

theorem miningStep_difficulty (mr : List SignedTransaction → Nat)
    (s s' : Blockchain) (mp mp' : Mempool) (nonce ts : Nat) (mined : Bool)
    (h : miningStep hashH mr s mp nonce ts = some (s', mp', mined)) :
    s'.difficulty = s.difficulty := by
  rw [miningStep] at h
  cases hlook : alookup s.tip s.hash_to_block with
  | none =>
    rw [hlook] at h
    exact absurd h (by simp)
  | some pb =>
    rw [hlook] at h
    dsimp only at h
    split at h <;> split at h <;>
      (simp only [Option.some.injEq, Prod.mk.injEq] at h
       obtain ⟨hs, -, -⟩ := h
       subst hs) <;> rfl

theorem miningStep_orphan_buffer (mr : List SignedTransaction → Nat)
    (s s' : Blockchain) (mp mp' : Mempool) (nonce ts : Nat) (mined : Bool)
    (h : miningStep hashH mr s mp nonce ts = some (s', mp', mined)) :
    s'.orphan_buffer = s.orphan_buffer := by
  rw [miningStep] at h
  cases hlook : alookup s.tip s.hash_to_block with
  | none =>
    rw [hlook] at h
    exact absurd h (by simp)
  | some pb =>
    rw [hlook] at h
    dsimp only at h
    split at h <;> split at h <;>
      (simp only [Option.some.injEq, Prod.mk.injEq] at h
       obtain ⟨hs, -, -⟩ := h
       subst hs) <;> rfl

theorem insertRecAux_orphan_mem (s : Blockchain) (q : List Block)
    (out : List Nat) (k : Nat) (c : Block) :
    c ∈ (alookup k ((insertRecAux hashH s q out).1).orphan_buffer).getD [] →
    c ∈ (alookup k s.orphan_buffer).getD [] := by
  induction s, q, out using insertRecAux.induct hashH with
  | case1 s out =>
    intro hc
    rw [insertRecAux] at hc
    exact hc
  | case2 s b rest out hcont ih =>
    intro hc
    rw [insertRecAux_cons_skip hashH s b rest out hcont] at hc
    exact ih hc
  | case3 s b rest out hcont s1 out1 children hcs buf2 s2 ih =>
    intro hc
    have hcs' : alookup (hashH b.header) s.orphan_buffer = some children := hcs
    rw [insertRecAux_cons_drain hashH s b rest out children hcont hcs'] at hc
    have hc3 : c ∈ (alookup k (aremove (hashH b.header)
        s.orphan_buffer)).getD [] := ih hc
    by_cases hk : hashH b.header = k
    · rw [hk, alookup_aremove_self] at hc3
      exact absurd hc3 (List.not_mem_nil c)
    · rw [alookup_aremove_ne k (hashH b.header) _ hk] at hc3
      exact hc3
  | case4 s b rest out hcont s1 out1 hcs ih =>
    intro hc
    rw [insertRecAux_cons_new hashH s b rest out hcont hcs] at hc
    exact ih hc

theorem bool_not_true {b : Bool} (h : ¬ b = true) : b = false := by
  cases b
  · rfl
  · exact absurd rfl h

theorem bool_bang_true {b : Bool} (h : (!b) = true) : b = false := by
  cases b
  · rfl
  · exact absurd h (by decide)

theorem bool_bang_false {b : Bool} (h : ¬ (!b) = true) : b = true := by
  cases b
  · exact absurd (by decide) h
  · rfl

/-- Per-block orphan-buffer accounting in the `Blocks` handler: a block
found in the buffer after one iteration either was there before, or is
exactly the processed block, added under its own parent hash at a
moment when it passed PoW and neither it nor its parent was stored. -/
theorem processBlock_orphan_mem (now : Nat)
    (st : Blockchain × List Nat × List Nat) (b : Block) (k : Nat) (c : Block)
    (hc : c ∈ (alookup k ((processBlock hashH now st b).1).orphan_buffer).getD []) :
    c ∈ (alookup k st.1.orphan_buffer).getD [] ∨
    (c = b ∧ k = c.header.parent ∧
      st.1.pow_validity_check hashH c = true ∧
      st.1.contains_block c.header.parent = false ∧
      st.1.contains_block (hashH c.header) = false) := by
  obtain ⟨s, relay, missing⟩ := st
  rw [processBlock] at hc
  dsimp only at hc ⊢
  have hbuf : (recordOrigin hashH now s b).orphan_buffer = s.orphan_buffer :=
    recordOrigin_orphan_buffer hashH now s b
  split at hc
  · rw [hbuf] at hc
    exact Or.inl hc
  · rename_i hcont
    split at hc
    · rw [hbuf] at hc
      exact Or.inl hc
    · rename_i hpow
      split at hc
      · rename_i hpar
        rw [show ((recordOrigin hashH now s b).add_to_orphan_buffer b,
            relay, missing ++ [b.header.parent]).1
            = (recordOrigin hashH now s b).add_to_orphan_buffer b from rfl] at hc
        rw [Blockchain.add_to_orphan_buffer] at hc
        dsimp only at hc
        rw [hbuf] at hc
        by_cases hk : b.header.parent = k
        · rw [hk, alookup_ainsert_self] at hc
          dsimp only [Option.getD_some] at hc
          rcases List.mem_append.mp hc with hold | hnew
          · exact Or.inl hold
          · have hcb : c = b := List.mem_singleton.mp hnew
            refine Or.inr ⟨hcb, ?_, ?_, ?_, ?_⟩
            · rw [hcb]
              exact hk.symm
            · rw [hcb, ← recordOrigin_pow hashH now s b b]
              exact bool_bang_false hpow
            · rw [hcb, ← recordOrigin_contains hashH now s b]
              exact bool_bang_true hpar
            · rw [hcb, ← recordOrigin_contains hashH now s b]
              exact bool_not_true hcont
        · rw [alookup_ainsert_ne k b.header.parent _ _ hk] at hc
          exact Or.inl hc
      · rw [show ((((recordOrigin hashH now s b).insert_recursively hashH b
            relay)).1,
            (((recordOrigin hashH now s b).insert_recursively hashH b
            relay)).2, missing).1
            = (((recordOrigin hashH now s b).insert_recursively hashH b
            relay)).1 from rfl] at hc
        rw [Blockchain.insert_recursively] at hc
        have := insertRecAux_orphan_mem hashH _ [b] relay k c hc
        rw [hbuf] at this
        exact Or.inl this

theorem pow_of_difficulty_eq (s s' : Blockchain)
    (hd : s'.difficulty = s.difficulty) (c : Block) :
    s'.pow_validity_check hashH c = s.pow_validity_check hashH c := by
  rw [Blockchain.pow_validity_check, Blockchain.pow_validity_check, hd]

/-- `ReachFromW mr a s`: the store `s` lies on a run continuing from
`a` — zero or more miner attempts and `Blocks`-handler invocations
(the same steps that generate `ReachW`, but from an arbitrary start). -/
inductive ReachFromW (mr : List SignedTransaction → Nat) :
    Blockchain → Blockchain → Prop where
  | refl (a : Blockchain) : ReachFromW mr a a
  | miner (a s s' : Blockchain) (mp mp' : Mempool) (nonce ts : Nat)
      (mined : Bool) :
      ReachFromW mr a s →
      miningStep hashH mr s mp nonce ts = some (s', mp', mined) →
      ReachFromW mr a s'
  | blocks (a s : Blockchain) (now : Nat) (bl : List Block) :
      ReachFromW mr a s →
      ReachFromW mr a (processBlocks hashH now s bl).1

/-- Evaluating one `Blocks`-handler invocation on the single block `c`
from a store where `c` is unknown, PoW-valid and parentless: the
handler takes the orphan branch, so the resulting store is the
origin-recorded store with `c` appended to the buffer entry of its
parent hash — in particular `c` is buffered there. -/
theorem processBlocks_single_orphan (now : Nat) (s : Blockchain) (c : Block)
    (hcont : s.contains_block (hashH c.header) = false)
    (hpow : s.pow_validity_check hashH c = true)
    (hpar : s.contains_block c.header.parent = false) :
    (processBlocks hashH now s [c]).1
      = (recordOrigin hashH now s c).add_to_orphan_buffer c ∧
    c ∈ (alookup c.header.parent
      ((processBlocks hashH now s [c]).1).orphan_buffer).getD [] := by
  have h1 : (recordOrigin hashH now s c).contains_block (hashH c.header)
      = false := by
    rw [recordOrigin_contains]
    exact hcont
  have h2 : (recordOrigin hashH now s c).pow_validity_check hashH c = true := by
    rw [recordOrigin_pow]
    exact hpow
  have h3 : (recordOrigin hashH now s c).parent_check c = false := by
    show (recordOrigin hashH now s c).contains_block c.header.parent = false
    rw [recordOrigin_contains]
    exact hpar
  have heq : (processBlocks hashH now s [c]).1
      = (recordOrigin hashH now s c).add_to_orphan_buffer c := by
    rw [processBlocks, List.foldl_cons, List.foldl_nil, processBlock]
    dsimp only
    rw [if_neg (by rw [h1]; exact Bool.false_ne_true)]
    rw [if_neg (by rw [h2]; decide)]
    rw [if_pos (by rw [h3]; rfl)]
  refine ⟨heq, ?_⟩
  have hb : ((recordOrigin hashH now s c).add_to_orphan_buffer c).orphan_buffer
      = ainsert c.header.parent
        ((alookup c.header.parent
          (recordOrigin hashH now s c).orphan_buffer).getD [] ++ [c])
        (recordOrigin hashH now s c).orphan_buffer := rfl
  rw [heq, hb, alookup_ainsert_self]
  exact List.mem_append_right _ (List.mem_singleton.mpr rfl)

/-- The orphan-buffer invariant: every buffered block is keyed under
its own parent hash, passes PoW validation against the current
difficulty (the difficulty never changes, so this is also PoW validity
at buffering time), and its buffering event is on the run: some
reachable store `t` holds neither the block nor its parent, processing
exactly that block from `t` buffers it, and the current store is
reached from that post-buffering store. -/
def OrphanOK (mr : List SignedTransaction → Nat) (genesis : Block)
    (s : Blockchain) : Prop :=
  ∀ k c, c ∈ (alookup k s.orphan_buffer).getD [] →
    s.pow_validity_check hashH c = true ∧ k = c.header.parent ∧
    ∃ t now, ReachW hashH mr genesis t ∧
      t.pow_validity_check hashH c = true ∧
      t.contains_block c.header.parent = false ∧
      t.contains_block (hashH c.header) = false ∧
      c ∈ (alookup c.header.parent
        ((processBlocks hashH now t [c]).1).orphan_buffer).getD [] ∧
      ReachFromW hashH mr ((processBlocks hashH now t [c]).1) s

theorem fold_orphan_ok (mr : List SignedTransaction → Nat) (genesis : Block)
    (now : Nat) (bl : List Block) :
    ∀ st : Blockchain × List Nat × List Nat,
      ReachW hashH mr genesis st.1 → OrphanOK hashH mr genesis st.1 →
      ReachW hashH mr genesis ((bl.foldl (processBlock hashH now) st).1) ∧
      OrphanOK hashH mr genesis ((bl.foldl (processBlock hashH now) st).1) := by
  induction bl with
  | nil =>
    intro st h1 h2
    rw [List.foldl_nil]
    exact ⟨h1, h2⟩
  | cons b rest ih =>
    intro st h1 h2
    rw [List.foldl_cons]
    have heq : (processBlock hashH now st b).1
        = (processBlocks hashH now st.1 [b]).1 := by
      rw [processBlocks, List.foldl_cons, List.foldl_nil]
      obtain ⟨s, r, m⟩ := st
      exact processBlock_state_indep hashH now s r m [] [] b
    apply ih
    · rw [heq]
      exact ReachW.blocks st.1 now [b] h1
    · intro k c hc
      have hd : ((processBlock hashH now st b).1).difficulty
          = st.1.difficulty := processBlock_difficulty hashH now st b
      rcases processBlock_orphan_mem hashH now st b k c hc with hold | hnew
      · obtain ⟨hp, hk, t, now', ht, hpow, hcpar, hcself, hbufE, hfrom⟩ :=
          h2 k c hold
        refine ⟨?_, hk, t, now', ht, hpow, hcpar, hcself, hbufE, ?_⟩
        · rw [pow_of_difficulty_eq hashH st.1 _ hd c]
          exact hp
        · rw [heq]
          exact ReachFromW.blocks _ st.1 now [b] hfrom
      · obtain ⟨hcb, hk, hpow1, hpar1, hself1⟩ := hnew
        subst hcb
        refine ⟨?_, hk, st.1, now, h1, hpow1, hpar1, hself1, ?_, ?_⟩
        · rw [pow_of_difficulty_eq hashH st.1 _ hd c]
          exact hpow1
        · exact (processBlocks_single_orphan hashH now st.1 c
            hself1 hpow1 hpar1).2
        · rw [heq]
          exact ReachFromW.refl _

/-- C5 (amended): in every reachable store, every block in the orphan
buffer is keyed under its own parent hash, passed PoW validation when
it was buffered (equivalently, passes it now — the difficulty is
constant), and at the moment it was buffered its *parent* — though not
necessarily every ancestor — was absent from `hash_to_block`: the run
reaching the current store contains the buffering event, a reachable
store `t` holding neither the block nor its parent from which
processing exactly that block buffers it, with the current store
reached from that post-buffering store. -/
theorem orphan_buffer_pow_and_parent_missing
    (mr : List SignedTransaction → Nat) (genesis : Block) (s : Blockchain)
    (hr : ReachW hashH mr genesis s) (k : Nat) (c : Block)
    (hc : c ∈ (alookup k s.orphan_buffer).getD []) :
    s.pow_validity_check hashH c = true ∧ k = c.header.parent ∧
    ∃ t now, ReachW hashH mr genesis t ∧
      t.pow_validity_check hashH c = true ∧
      t.contains_block c.header.parent = false ∧
      t.contains_block (hashH c.header) = false ∧
      c ∈ (alookup c.header.parent
        ((processBlocks hashH now t [c]).1).orphan_buffer).getD [] ∧
      ReachFromW hashH mr ((processBlocks hashH now t [c]).1) s := by
  revert k c
  induction hr with
  | base =>
    intro k c hc
    simp [Blockchain.new, alookup] at hc
  | miner s1 s2 mp mp' nonce ts mined hr1 hstep ih =>
    intro k c hc
    rw [miningStep_orphan_buffer hashH mr s1 s2 mp mp' nonce ts mined hstep]
      at hc
    obtain ⟨hp, hk, t, now', ht, hpow, hcpar, hcself, hbufE, hfrom⟩ := ih k c hc
    refine ⟨?_, hk, t, now', ht, hpow, hcpar, hcself, hbufE, ?_⟩
    · rw [pow_of_difficulty_eq hashH s1 s2
        (miningStep_difficulty hashH mr s1 s2 mp mp' nonce ts mined hstep) c]
      exact hp
    · exact ReachFromW.miner _ s1 s2 mp mp' nonce ts mined hfrom hstep
  | blocks s1 now bl hr1 ih =>
    exact (fold_orphan_ok hashH mr genesis now bl (s1, [], []) hr1 ih).2

/-- First delivered block of the C5 scenario: child of genesis,
hash 4, PoW-valid. -/
def aA : Block :=
  { header := { parent := 3, nonce := 4, difficulty := 100,
                timestamp := 0, merkle_root := 0 },
    content := ⟨[]⟩ }

/-- The middle block of the C5 scenario (hash 5, child of `aA`); it is
never delivered. -/
def pP : Block :=
  { header := { parent := 4, nonce := 5, difficulty := 100,
                timestamp := 0, merkle_root := 0 },
    content := ⟨[]⟩ }

/-- The delivered grandchild (hash 6, child of `pP`): PoW-valid but
parentless, so it is buffered while its grandparent `aA` is stored. -/
def bB : Block :=
  { header := { parent := 5, nonce := 6, difficulty := 100,
                timestamp := 0, merkle_root := 0 },
    content := ⟨[]⟩ }

/-- The store after the `Blocks([aA])` delivery. -/
def sA : Blockchain :=
  Blockchain.insert hashNonce (recordOrigin hashNonce 0 chain0 aA) aA

/-- The store after the subsequent `Blocks([bB])` delivery: `bB` sits
in the orphan buffer under key 5. -/
def sB : Blockchain :=
  (recordOrigin hashNonce 0 sA bB).add_to_orphan_buffer bB

theorem processBlocks_aA : (processBlocks hashNonce 0 chain0 [aA]).1 = sA := by
  rw [processBlocks, List.foldl_cons, List.foldl_nil, processBlock]
  dsimp only
  rw [if_neg (by decide), if_neg (by decide), if_neg (by decide)]
  dsimp only
  rw [Blockchain.insert_recursively,
    insertRecAux_cons_new hashNonce _ aA [] [] (by decide) (by decide),
    insertRecAux]
  rfl

theorem processBlocks_bB : (processBlocks hashNonce 0 sA [bB]).1 = sB := by
  decide

theorem reach_sB : ReachW hashNonce mr0 g0 sB := by
  have r1 : ReachW hashNonce mr0 g0 (processBlocks hashNonce 0 chain0 [aA]).1 :=
    ReachW.blocks chain0 0 [aA] ReachW.base
  rw [processBlocks_aA] at r1
  have r2 : ReachW hashNonce mr0 g0 (processBlocks hashNonce 0 sA [bB]).1 :=
    ReachW.blocks sA 0 [bB] r1
  rw [processBlocks_bB] at r2
  exact r2

/-- Counterexample to C5 as stated: in the reachable store `sB`, the
buffered block `bB` has the ancestor `aA` (its grandparent, through
the undelivered `pP`) in `hash_to_block` — and `aA` was already stored
in `sA`, the state at the moment `bB` was buffered.  Only `bB`'s
*parent* `pP` was missing. -/
theorem orphan_buffer_ancestor_in_store :
    ReachW hashNonce mr0 g0 sB ∧
    bB ∈ (alookup bB.header.parent sB.orphan_buffer).getD [] ∧
    AncestorOf hashNonce aA bB ∧
    sA.contains_block (hashNonce aA.header) = true ∧
    bB ∉ (alookup bB.header.parent sA.orphan_buffer).getD [] ∧
    sB.contains_block (hashNonce pP.header) = false :=
  ⟨reach_sB, by decide,
    AncestorOf.step aA pP bB (AncestorOf.parent aA pP (by decide)) (by decide),
    by decide, by decide, by decide⟩

/-- Witness for the amended C5 at the reachable store `sB` and its
buffered block `bB`. -/
theorem orphan_buffer_pow_and_parent_missing_witness :
    sB.pow_validity_check hashNonce bB = true ∧
    bB.header.parent = bB.header.parent ∧
    ∃ t now, ReachW hashNonce mr0 g0 t ∧
      t.pow_validity_check hashNonce bB = true ∧
      t.contains_block bB.header.parent = false ∧
      t.contains_block (hashNonce bB.header) = false ∧
      bB ∈ (alookup bB.header.parent
        ((processBlocks hashNonce now t [bB]).1).orphan_buffer).getD [] ∧
      ReachFromW hashNonce mr0 ((processBlocks hashNonce now t [bB]).1) sB :=
  orphan_buffer_pow_and_parent_missing hashNonce mr0 g0 sB reach_sB
    bB.header.parent bB (by decide)

/-! ## C2 — the tree, key-set and tip-maximality invariants -/

theorem akeys_filter_key (k : Nat) (l : List (Nat × α)) :
    akeys (l.filter (fun p => p.1 != k))
      = (akeys l).filter (fun x => x != k) := by
  induction l with
  | nil => rfl
  | cons p t ih =>
    rw [List.filter_cons]
    have hk : akeys (p :: t) = p.1 :: akeys t := rfl
    rw [hk, List.filter_cons]
    by_cases hp : p.1 = k
    · simp only [hp, bne_self_eq_false, if_neg Bool.false_ne_true]
      exact ih
    · simp only [bne_iff_ne, ne_eq, hp, not_false_iff, if_true]
      have hk2 : akeys (p :: List.filter (fun q => q.1 != k) t)
          = p.1 :: akeys (List.filter (fun q => q.1 != k) t) := rfl
      rw [hk2, ih]

theorem akeys_ainsert (k : Nat) (v : α) (l : List (Nat × α)) :
    akeys (ainsert k v l) = k :: (akeys l).filter (fun x => x != k) := by
  rw [ainsert, akeys, List.map_cons, ← akeys, akeys_filter_key]

theorem mem_akeys_ainsert (x k : Nat) (v : α) (l : List (Nat × α)) :
    x ∈ akeys (ainsert k v l) ↔ (x = k ∨ x ∈ akeys l) := by
  rw [akeys_ainsert, List.mem_cons]
  constructor
  · rintro (rfl | hm)
    · exact Or.inl rfl
    · exact Or.inr (List.mem_of_mem_filter hm)
  · rintro (rfl | hm)
    · exact Or.inl rfl
    · by_cases hx : x = k
      · exact Or.inl hx
      · refine Or.inr (List.mem_filter.mpr ⟨hm, ?_⟩)
        simpa using hx

theorem nodup_akeys_ainsert (k : Nat) (v : α) (l : List (Nat × α))
    (h : (akeys l).Nodup) : (akeys (ainsert k v l)).Nodup := by
  rw [akeys_ainsert]
  refine List.Nodup.cons ?_ (List.Nodup.filter _ h)
  intro hmem
  have := (List.mem_filter.mp hmem).2
  simp at this

theorem mem_ainsert (q : Nat × α) (k : Nat) (v : α) (l : List (Nat × α)) :
    q ∈ ainsert k v l ↔ (q = (k, v) ∨ (q ∈ l ∧ q.1 ≠ k)) := by
  rw [ainsert, List.mem_cons]
  constructor
  · rintro (rfl | hm)
    · exact Or.inl rfl
    · obtain ⟨hq, hne⟩ := List.mem_filter.mp hm
      refine Or.inr ⟨hq, ?_⟩
      simpa using hne
  · rintro (rfl | ⟨hq, hne⟩)
    · exact Or.inl rfl
    · refine Or.inr (List.mem_filter.mpr ⟨hq, ?_⟩)
      simpa using hne

theorem alookup_mem (k : Nat) (v : α) (l : List (Nat × α))
    (h : alookup k l = some v) : (k, v) ∈ l := by
  induction l with
  | nil => exact absurd h (by simp [alookup])
  | cons p t ih =>
    cases p with
    | mk a b =>
      rw [alookup] at h
      by_cases hak : a = k
      · rw [if_pos hak] at h
        injection h with h
        rw [hak, h]
        exact List.mem_cons_self _ _
      · rw [if_neg hak] at h
        exact List.mem_cons_of_mem _ (ih h)

theorem mem_alookup_of_nodup (k : Nat) (v : α) (l : List (Nat × α))
    (hnd : (akeys l).Nodup) (h : (k, v) ∈ l) : alookup k l = some v := by
  induction l with
  | nil => exact absurd h (List.not_mem_nil _)
  | cons p t ih =>
    cases p with
    | mk a b =>
      rw [akeys, List.map_cons, List.nodup_cons] at hnd
      rcases List.mem_cons.mp h with heq | hm
      · injection heq with h1 h2
        rw [alookup, if_pos h1.symm]
        rw [h2]
      · have hak : a ≠ k := by
          intro rfk
          exact hnd.1 (by
            rw [rfk]
            exact (List.mem_map.mpr ⟨(k, v), hm, rfl⟩))
        rw [alookup, if_neg hak]
        exact ih hnd.2 hm

theorem mem_akeys_exists (x : Nat) (l : List (Nat × α)) :
    x ∈ akeys l ↔ ∃ v, (x, v) ∈ l := by
  rw [akeys, List.mem_map]
  constructor
  · rintro ⟨p, hp, rfl⟩
    exact ⟨p.2, hp⟩
  · rintro ⟨v, hv⟩
    exact ⟨(x, v), hv, rfl⟩

/-- The inductive invariant of stores built by `insert` (under
`parent_check`) and `insert_recursively` from `Blockchain::new()`:
unique keys, identical key sets of the two maps, genesis at height 0,
every key the hash of its stored block's header, the tree property
(each non-genesis block's parent stored one level below it), tip
maximality, and an orphan buffer that stays empty (these operations
never fill it). -/
def InvI (genesis : Block) (s : Blockchain) : Prop :=
  (akeys s.hash_to_block).Nodup ∧
  akeys s.hash_to_block = akeys s.hash_to_height ∧
  alookup (hashH genesis.header) s.hash_to_height = some 0 ∧
  hashH genesis.header ∈ akeys s.hash_to_block ∧
  (∀ q ∈ s.hash_to_block, hashH q.2.header = q.1) ∧
  (∀ q ∈ s.hash_to_block, q.1 ≠ hashH genesis.header →
    ∃ ph, alookup q.2.header.parent s.hash_to_height = some ph ∧
      alookup q.1 s.hash_to_height = some (ph + 1)) ∧
  (∃ th, alookup s.tip s.hash_to_height = some th ∧
    ∀ q ∈ s.hash_to_height, q.2 ≤ th) ∧
  s.tip ∈ akeys s.hash_to_block ∧
  s.orphan_buffer = []

theorem invI_insert (genesis : Block) (s : Blockchain) (b : Block)
    (hinj : Function.Injective hashH)
    (hgp : ∀ hd, hashH hd ≠ genesis.header.parent)
    (hinv : InvI hashH genesis s)
    (hp : s.parent_check b = true) :
    InvI hashH genesis (s.insert hashH b) := by
  obtain ⟨hnd, hkeq, hg0, hgmem, hhc, hP1, ⟨th, htip, hmax⟩, htmem, hbuf⟩ := hinv
  have hpk : b.header.parent ∈ akeys s.hash_to_block := by
    rw [← alookup_isSome_iff_mem_akeys]
    exact hp
  have hpkh : b.header.parent ∈ akeys s.hash_to_height := hkeq ▸ hpk
  obtain ⟨pb, hpb⟩ := (mem_akeys_exists _ _).mp hpk
  have hpbh : hashH pb.header = b.header.parent := hhc _ hpb
  have hF3 : hashH b.header ≠ hashH genesis.header := by
    intro he
    have hbg : b.header = genesis.header := hinj he
    have : hashH pb.header = genesis.header.parent := by
      rw [hpbh, hbg]
    exact hgp pb.header this
  have hF4 : b.header.parent ≠ hashH b.header := by
    intro he
    obtain ⟨c, hcmem⟩ := (mem_akeys_exists _ _).mp (he ▸ hpk)
    have hcb : c.header = b.header := hinj (hhc _ hcmem)
    obtain ⟨ph', hq1, hq2⟩ := hP1 (hashH b.header, c) hcmem hF3
    have hq1' : alookup c.header.parent s.hash_to_height = some ph' := hq1
    have hq2' : alookup (hashH b.header) s.hash_to_height
        = some (ph' + 1) := hq2
    rw [hcb, he] at hq1'
    rw [hq1'] at hq2'
    injection hq2' with hv
    omega
  obtain ⟨ph, hph⟩ := Option.isSome_iff_exists.mp
    ((alookup_isSome_iff_mem_akeys _ _).mpr hpkh)
  have hE1 : (s.insert hashH b).hash_to_height
      = ainsert (hashH b.header) (ph + 1) s.hash_to_height := by
    show ainsert (hashH b.header)
      ((alookup b.header.parent s.hash_to_height).getD 0 + 1)
      s.hash_to_height = _
    rw [hph]
    rfl
  have hE2 : (s.insert hashH b).hash_to_block
      = ainsert (hashH b.header) b s.hash_to_block := rfl
  have hHL : ∀ k, alookup k (ainsert (hashH b.header) (ph + 1) s.hash_to_height)
      = if k = hashH b.header then some (ph + 1)
        else alookup k s.hash_to_height := by
    intro k
    by_cases hk : k = hashH b.header
    · rw [hk, if_pos rfl, alookup_ainsert_self]
    · rw [if_neg hk, alookup_ainsert_ne k (hashH b.header) _ _
        (fun he => hk he.symm)]
  have hF6 : hashH b.header ∈ akeys s.hash_to_block →
      alookup (hashH b.header) s.hash_to_height = some (ph + 1) := by
    intro hmem
    obtain ⟨c, hcmem⟩ := (mem_akeys_exists _ _).mp hmem
    have hcb : c.header = b.header := hinj (hhc _ hcmem)
    obtain ⟨ph'', hq1, hq2⟩ := hP1 (hashH b.header, c) hcmem hF3
    have hq1' : alookup c.header.parent s.hash_to_height = some ph'' := hq1
    have hq2' : alookup (hashH b.header) s.hash_to_height
        = some (ph'' + 1) := hq2
    rw [hcb] at hq1'
    have hph2 := hph
    rw [hq1'] at hph2
    injection hph2 with hphv
    rw [← hphv]
    exact hq2'
  have hT1 : alookup s.tip
      (ainsert (hashH b.header) (ph + 1) s.hash_to_height) = some th := by
    by_cases hk : s.tip = hashH b.header
    · have hmem : hashH b.header ∈ akeys s.hash_to_block := hk ▸ htmem
      have := hF6 hmem
      rw [hHL s.tip, if_pos hk]
      rw [hk, this] at htip
      injection htip with htipv
      rw [htipv]
    · rw [hHL s.tip, if_neg hk]
      exact htip
  have hE3 : (s.insert hashH b).tip
      = if th < ph + 1 then hashH b.header else s.tip := by
    have hgd : (alookup s.tip (ainsert (hashH b.header) (ph + 1)
        s.hash_to_height)).getD 0 = th := by
      rw [hT1, Option.getD_some]
    show (if ((alookup b.header.parent s.hash_to_height).getD 0 + 1 >
        (alookup s.tip (ainsert (hashH b.header)
          ((alookup b.header.parent s.hash_to_height).getD 0 + 1)
          s.hash_to_height)).getD 0)
        then hashH b.header else s.tip) = _
    rw [hph, Option.getD_some, hgd]
  refine ⟨?_, ?_, ?_, ?_, ?_, ?_, ?_, ?_, ?_⟩
  · rw [hE2]
    exact nodup_akeys_ainsert _ b _ hnd
  · rw [hE1, hE2, akeys_ainsert, akeys_ainsert, hkeq]
  · rw [hE1, hHL, if_neg (fun he => hF3 he.symm)]
    exact hg0
  · rw [hE2]
    exact (mem_akeys_ainsert _ _ _ _).mpr (Or.inr hgmem)
  · intro q hq
    rw [hE2] at hq
    rcases (mem_ainsert _ _ _ _).mp hq with rfl | ⟨hq2, -⟩
    · rfl
    · exact hhc _ hq2
  · intro q hq hne
    rw [hE1]
    rw [hE2] at hq
    rcases (mem_ainsert _ _ _ _).mp hq with rfl | ⟨hq2, hq1ne⟩
    · refine ⟨ph, ?_, ?_⟩
      · show alookup b.header.parent
          (ainsert (hashH b.header) (ph + 1) s.hash_to_height) = some ph
        rw [hHL, if_neg hF4]
        exact hph
      · show alookup (hashH b.header)
          (ainsert (hashH b.header) (ph + 1) s.hash_to_height)
          = some (ph + 1)
        rw [hHL, if_pos rfl]
    · obtain ⟨ph', hq3, hq4⟩ := hP1 q hq2 hne
      refine ⟨ph', ?_, ?_⟩
      · by_cases hpe : q.2.header.parent = hashH b.header
        · have hmem : hashH b.header ∈ akeys s.hash_to_block := by
            rw [hkeq, ← alookup_isSome_iff_mem_akeys, ← hpe, hq3]
            rfl
          have h6 := hF6 hmem
          rw [hpe] at hq3
          rw [h6] at hq3
          injection hq3 with hq3v
          rw [hHL, if_pos hpe, hq3v]
        · rw [hHL, if_neg hpe]
          exact hq3
      · rw [hHL, if_neg hq1ne]
        exact hq4
  · rw [hE1, hE3]
    by_cases hgt : th < ph + 1
    · rw [if_pos hgt]
      refine ⟨ph + 1, ?_, ?_⟩
      · rw [hHL, if_pos rfl]
      · intro q hq
        rcases (mem_ainsert _ _ _ _).mp hq with rfl | ⟨hq2, -⟩
        · exact Nat.le_refl _
        · exact Nat.le_trans (hmax q hq2) (Nat.le_of_lt hgt)
    · rw [if_neg hgt]
      refine ⟨th, hT1, ?_⟩
      intro q hq
      rcases (mem_ainsert _ _ _ _).mp hq with rfl | ⟨hq2, -⟩
      · show ph + 1 ≤ th
        omega
      · exact hmax q hq2
  · rw [hE2, hE3]
    by_cases hgt : th < ph + 1
    · rw [if_pos hgt]
      exact (mem_akeys_ainsert _ _ _ _).mpr (Or.inl rfl)
    · rw [if_neg hgt]
      exact (mem_akeys_ainsert _ _ _ _).mpr (Or.inr htmem)
  · exact hbuf

theorem reachI_invI (genesis : Block) (s : Blockchain)
    (hinj : Function.Injective hashH)
    (hgp : ∀ hd, hashH hd ≠ genesis.header.parent)
    (hr : ReachI hashH genesis s) : InvI hashH genesis s := by
  induction hr with
  | base =>
    refine ⟨?_, rfl, ?_, ?_, ?_, ?_, ⟨0, ?_, ?_⟩, ?_, rfl⟩
    · simp [Blockchain.new, akeys]
    · simp [Blockchain.new, alookup]
    · simp [Blockchain.new, akeys]
    · intro q hq
      rcases List.mem_singleton.mp hq with rfl
      rfl
    · intro q hq hne
      rcases List.mem_singleton.mp hq with rfl
      exact absurd rfl hne
    · simp [Blockchain.new, alookup]
    · intro q hq
      rcases List.mem_singleton.mp hq with rfl
      exact Nat.le_refl _
    · simp [Blockchain.new, akeys]
  | ins s b hr1 hpc ih =>
    exact invI_insert hashH genesis s b hinj hgp ih hpc
  | insRec s b out hr1 hdisj ih =>
    by_cases hc : s.contains_block (hashH b.header) = true
    · rw [insertRec_of_contains hashH s b out hc]
      exact ih
    · have hpc : s.parent_check b = true := by
        rcases hdisj with hpc | hct
        · exact hpc
        · exact absurd hct hc
      have hbuf : s.orphan_buffer = [] := ih.2.2.2.2.2.2.2.2
      have hnone : alookup (hashH b.header) s.orphan_buffer = none := by
        rw [hbuf]
        rfl
      have heq : s.insert_recursively hashH b out
          = (s.insert hashH b, out ++ [hashH b.header]) := by
        rw [Blockchain.insert_recursively,
          insertRecAux_cons_new hashH s b [] out hc hnone, insertRecAux]
      rw [heq]
      exact invI_insert hashH genesis s b hinj hgp ih hpc

/-- C2: in every store reachable from `Blockchain::new()` by `insert`
(under the `parent_check` precondition) and `insert_recursively`,
`hash_to_block` and `hash_to_height` have identical key sets
containing genesis; every non-genesis block's parent is in the store
with the child's height equal to the parent's height plus one; and the
tip is stored, its height the maximum over all stored heights.  The
hash function is injective (SHA-256 collision-freeness) and nothing
hashes to the genesis parent (no preimage of the zero hash). -/
theorem reachable_tree_invariants (genesis : Block) (s : Blockchain)
    (hinj : Function.Injective hashH)
    (hgp : ∀ hd, hashH hd ≠ genesis.header.parent)
    (hr : ReachI hashH genesis s) :
    akeys s.hash_to_block = akeys s.hash_to_height ∧
    hashH genesis.header ∈ akeys s.hash_to_block ∧
    (∀ q ∈ s.hash_to_block, q.1 ≠ hashH genesis.header →
      q.2.header.parent ∈ akeys s.hash_to_block ∧
      ∃ ph, alookup q.2.header.parent s.hash_to_height = some ph ∧
        alookup q.1 s.hash_to_height = some (ph + 1)) ∧
    s.tip ∈ akeys s.hash_to_block ∧
    ∃ th, alookup s.tip s.hash_to_height = some th ∧
      ∀ q ∈ s.hash_to_height, q.2 ≤ th := by
  obtain ⟨hnd, hkeq, hg0, hgmem, hhc, hP1, htp, htmem, hbuf⟩ :=
    reachI_invI hashH genesis s hinj hgp hr
  refine ⟨hkeq, hgmem, ?_, htmem, htp⟩
  intro q hq hne
  obtain ⟨ph, h1, h2⟩ := hP1 q hq hne
  refine ⟨?_, ph, h1, h2⟩
  rw [hkeq, ← alookup_isSome_iff_mem_akeys, h1]
  rfl

/-- An injective hash for the C2 witness: a pairing-function encoding
of the five header fields, shifted by one so that nothing hashes to
the genesis parent hash `0`. -/
def hashPair : Header → Nat := fun hd =>
  Nat.pair hd.parent (Nat.pair hd.nonce (Nat.pair hd.difficulty
    (Nat.pair hd.timestamp hd.merkle_root))) + 1

theorem hashPair_injective : Function.Injective hashPair := by
  intro x y he
  rw [hashPair, hashPair] at he
  have h0 := Nat.add_right_cancel he
  rw [Nat.pair_eq_pair] at h0
  obtain ⟨e1, h1⟩ := h0
  rw [Nat.pair_eq_pair] at h1
  obtain ⟨e2, h2⟩ := h1
  rw [Nat.pair_eq_pair] at h2
  obtain ⟨e3, h3⟩ := h2
  rw [Nat.pair_eq_pair] at h3
  obtain ⟨e4, e5⟩ := h3
  cases x
  cases y
  simp only [Header.mk.injEq]
  exact ⟨e1, e2, e3, e4, e5⟩

/-- The genesis block of the C2 witness: zero parent hash. -/
def gW : Block :=
  { header := { parent := 0, nonce := 0, difficulty := 100,
                timestamp := 0, merkle_root := 0 },
    content := ⟨[]⟩ }

/-- Witness for C2 at the freshly constructed store. -/
theorem reachable_tree_invariants_witness :
    akeys (Blockchain.new hashPair gW).hash_to_block
      = akeys (Blockchain.new hashPair gW).hash_to_height ∧
    hashPair gW.header ∈ akeys (Blockchain.new hashPair gW).hash_to_block ∧
    (∀ q ∈ (Blockchain.new hashPair gW).hash_to_block,
      q.1 ≠ hashPair gW.header →
      q.2.header.parent ∈ akeys (Blockchain.new hashPair gW).hash_to_block ∧
      ∃ ph, alookup q.2.header.parent
          (Blockchain.new hashPair gW).hash_to_height = some ph ∧
        alookup q.1 (Blockchain.new hashPair gW).hash_to_height
          = some (ph + 1)) ∧
    (Blockchain.new hashPair gW).tip
      ∈ akeys (Blockchain.new hashPair gW).hash_to_block ∧
    ∃ th, alookup (Blockchain.new hashPair gW).tip
        (Blockchain.new hashPair gW).hash_to_height = some th ∧
      ∀ q ∈ (Blockchain.new hashPair gW).hash_to_height, q.2 ≤ th :=
  reachable_tree_invariants hashPair gW (Blockchain.new hashPair gW)
    hashPair_injective (fun hd => Nat.succ_ne_zero _) ReachI.base

end PoWNode
